import Mathlib

/-!
Verification of the `PluginPersistor` class
(`src/extensions/gamebryo-plugin-management/src/util/PluginPersistor.ts`).

Shallow embedding conventions:
* JavaScript strings are modelled as `List Char` (`JSString`); `decode`/`encode`
  with 'utf-8'/'latin-1' are modelled as the identity on characters, with the
  chosen encoding recorded symbolically in each file write.
* A JavaScript object used as a string-keyed map (`PluginMap`) is modelled as an
  association list in insertion order (JS objects enumerate string keys in
  insertion order, and `plugins[key] = v` for a fresh key appends at the end).
* Asynchronous effects (file writes, the reset callback, scheduled refreshes)
  are recorded as explicit `Event` values returned next to the updated state.
-/

set_option maxHeartbeats 1000000

namespace PluginPersistor

/-- JavaScript string, modelled as a list of characters. -/
abbrev JSString := List Char

/-- `s.toLowerCase()` modelled characterwise. -/
def toLowerStr (s : JSString) : JSString := s.map Char.toLower

/-- One load-order entry (`ILoadOrder`): activation flag and position. -/
structure ILoadOrder where
  enabled : Bool
  loadOrder : Nat
deriving DecidableEq, Repr

/-- `type PluginMap = { [name: string]: ILoadOrder }`, in insertion order. -/
abbrev PluginMap := List (JSString × ILoadOrder)

/-- Property lookup `m[name]` on a `PluginMap` object. -/
def plookup (n : JSString) : PluginMap → Option ILoadOrder
  | [] => none
  | (k, e) :: rest => if k = n then some e else plookup n rest

/-- `Object.keys(m)` (insertion order). -/
def jsKeys (m : PluginMap) : List JSString := m.map Prod.fst

/-- `type PluginFormat = 'original' | 'fallout4'`.
The spec calls `original` the `Original` format and `fallout4` the
`AlternateOrdered` format (marker character `*`). -/
inductive PluginFormat
  | original
  | fallout4
deriving DecidableEq, Repr

/-- `const retryCount = 3`. -/
def retryCount : Nat := 3

/-! ### Line handling

`filterFileData` splits its input on the regular expression `/\r?\n/`.  We
model this in two steps that together scan left to right exactly like the
regex engine: first collapse every `"\r\n"` pair into `'\n'`
(`normNewlines`), then split on `'\n'` (`splitNl`). -/

/-- Collapse each `"\r\n"` occurrence (leftmost-first) into a single `'\n'`. -/
def normNewlines : List Char → List Char
  | [] => []
  | [c] => [c]
  | c :: d :: rest =>
    if c = '\r' ∧ d = '\n' then '\n' :: normNewlines rest
    else c :: normNewlines (d :: rest)

/-- Split on `'\n'`; like `String.prototype.split`, the result is never empty
and an empty input yields `[[]]`. -/
def splitNl : List Char → List (List Char)
  | [] => [[]]
  | c :: rest =>
    if c = '\n' then [] :: splitNl rest
    else
      match splitNl rest with
      | [] => [[c]]
      | l :: ls => (c :: l) :: ls

/-- `input.split(/\r?\n/)`. -/
def splitLines (s : List Char) : List (List Char) := splitNl (normNewlines s)

/-- `lines.join('\r\n')`. -/
def joinCrlf : List (List Char) → List Char
  | [] => []
  | x :: xs =>
    match xs with
    | [] => x
    | _ :: _ => x ++ '\r' :: '\n' :: joinCrlf xs

/-- The generated comment header line `'# Automatically generated by NMM2'`. -/
def headerLine : List Char := "# Automatically generated by NMM2".data

/-- `'# Automatically generated by NMM2\r\n' + lines.join('\r\n')` — the full
content written for one file. -/
def renderContent (lines : List (List Char)) : List Char :=
  headerLine ++ '\r' :: '\n' :: joinCrlf lines

/-- The filter in `filterFileData`:
`!value.startsWith('#') && (value.length > 0)`. -/
def keepLine (v : List Char) : Bool := !(v.head? == some '#') && !v.isEmpty

/-- `filterFileData`: split into lines, drop comment lines and blank lines. -/
def filterFileData (input : List Char) : List (List Char) :=
  (splitLines input).filter keepLine

/-! ### `initFromKeyList` -/

/-- `enabled && ((this.mPluginFormat === 'original') || (key[0] === '*'))`
(computed from the key before any marker is stripped). -/
def keyEnabledOf (fmt : Option PluginFormat) (enabled : Bool) (key : JSString) : Bool :=
  enabled && (fmt == some PluginFormat.original || key.head? == some '*')

/-- `if ((this.mPluginFormat === 'fallout4') && (key[0] === '*')) key = key.slice(1)`. -/
def decodeName (fmt : Option PluginFormat) (key : JSString) : JSString :=
  if fmt == some PluginFormat.fallout4 && key.head? == some '*' then key.tail else key

/-- `plugins[key].enabled = v` for an existing key (keys are unique). -/
def setEnabled (n : JSString) (v : Bool) : PluginMap → PluginMap
  | [] => []
  | (k, e) :: rest =>
    if k = n then (k, { e with enabled := v }) :: rest
    else (k, e) :: setEnabled n v rest

/-- The loop body of `initFromKeyList`, with the mutable `loadOrderPos`
threaded explicitly. -/
def initAux (fmt : Option PluginFormat) (native : List JSString) :
    PluginMap → Nat → List JSString → Bool → PluginMap
  | plugins, _, [], _ => plugins
  | plugins, pos, key :: rest, enabled =>
    let ke := keyEnabledOf fmt enabled key
    let k := decodeName fmt key
    if toLowerStr k ∈ native then
      initAux fmt native plugins pos rest enabled
    else
      match plookup k plugins with
      | some _ => initAux fmt native (setEnabled k ke plugins) pos rest enabled
      | none => initAux fmt native (plugins ++ [(k, ⟨ke, pos⟩)]) (pos + 1) rest enabled

/-- `initFromKeyList(plugins, keys, enabled)`;
`loadOrderPos` starts at `Object.keys(plugins).length`. -/
def initFromKeyList (fmt : Option PluginFormat) (native : List JSString)
    (plugins : PluginMap) (keys : List JSString) (enabled : Bool) : PluginMap :=
  initAux fmt native plugins plugins.length keys enabled

/-! ### Serialization -/

/-- `this.mPlugins[n].loadOrder` as used by the sort comparator
(every name sorted comes from `Object.keys(this.mPlugins)`, so the lookup
always succeeds in reachable calls; the default is never exercised there). -/
def loOf (m : PluginMap) (n : JSString) : Nat :=
  ((plookup n m).map ILoadOrder.loadOrder).getD 0

/-- `.sort((lhs, rhs) => m[lhs].loadOrder - m[rhs].loadOrder)` — an ascending
sort by `loadOrder` (with pairwise distinct load orders the sorted result is
unique, so any correct sorting algorithm models it). -/
def sortByLo (lo : JSString → Nat) (l : List JSString) : List JSString :=
  List.insertionSort (fun a b => lo a ≤ lo b) l

/-- `Object.keys(this.mPlugins).filter(n => !native.has(n.toLowerCase())).sort(...)`. -/
def sortedList (native : List JSString) (m : PluginMap) : List JSString :=
  sortByLo (loOf m) ((jsKeys m).filter (fun n => !decide (toLowerStr n ∈ native)))

/-- `this.mPlugins[n].enabled`, with JS `undefined` falsy / `getSafe` default. -/
def enabledOf (m : PluginMap) (n : JSString) : Bool :=
  ((plookup n m).map ILoadOrder.enabled).getD false

/-- `toPluginListOriginal`: keep only the enabled names. -/
def toPluginListOriginal (m : PluginMap) (input : List JSString) : List JSString :=
  input.filter (fun n => enabledOf m n)

/-- `toPluginListFallout4`: prefix enabled names with the `'*'` marker. -/
def toPluginListFallout4 (m : PluginMap) (input : List JSString) : List JSString :=
  input.map (fun n => if enabledOf m n then '*' :: n else n)

/-- `toPluginList`: dispatch on `this.mPluginFormat === 'original'`. -/
def toPluginList (fmt : Option PluginFormat) (m : PluginMap) (input : List JSString) :
    List JSString :=
  if fmt = some PluginFormat.original then toPluginListOriginal m input
  else toPluginListFallout4 m input

/-- Encoding passed to `iconv-lite`, recorded symbolically. -/
inductive Encoding
  | utf8
  | latin1
deriving DecidableEq, Repr

/-- One `fs.writeFileAsync` call. -/
structure FileWrite where
  fileName : String
  encoding : Encoding
  content : List Char
deriving DecidableEq, Repr

/-- `path.join`. -/
def pathJoin (dir file : String) : String := dir ++ "/" ++ file

/-- Observable effects of the persistor. -/
inductive Event
  | fileWrite (w : FileWrite)
  | resetCalled
  | logWarn
  | schedRefresh (ms : Nat)
deriving DecidableEq, Repr

/-- Instance state of the `PluginPersistor` class.
`resetCallback` records whether `setResetCallback` has installed a callback,
`watch` whether a directory watcher is open, `refreshTimer` a pending
`scheduleRefresh` delay. -/
structure PState where
  pluginPath : Option String
  pluginFormat : Option PluginFormat
  nativePlugins : Option (List JSString)
  plugins : PluginMap
  retryCounter : Nat
  loaded : Bool
  resetCallback : Bool
  watch : Bool
  refreshTimer : Option Nat
deriving DecidableEq, Repr

/-- State after the constructor runs. -/
def initialState : PState :=
  { pluginPath := none, pluginFormat := none, nativePlugins := none,
    plugins := [], retryCounter := retryCount, loaded := false,
    resetCallback := false, watch := false, refreshTimer := none }

/-- `stopSync()`: clear the binding and close the watcher.
(The refresh timer, the map, `loaded` and the retry counter are untouched.) -/
def stopSync (s : PState) : PState :=
  { s with pluginPath := none, pluginFormat := none, nativePlugins := none,
           watch := false }

/-- `getItem`: the value passed to the callback is
`JSON.stringify(this.mPlugins)`; `JSON.stringify` is injective on plugin maps,
so we model the result by the map itself. -/
def getItemResult (s : PState) : PluginMap := s.plugins

/-- `doSerialize()`: the two `fs.writeFileAsync` calls it performs.
`nativePlugins` is set whenever `pluginPath` is (`loadFiles` sets all three
binding fields together and `stopSync` clears them together), so the
`getD []` default is never exercised past the path guard. -/
def doSerialize (s : PState) : List Event :=
  match s.pluginPath with
  | none => []
  | some p =>
    let native := s.nativePlugins.getD []
    let sorted := sortedList native s.plugins
    let filtered := toPluginList s.pluginFormat s.plugins sorted
    [Event.fileWrite ⟨pathJoin p "loadorder.txt", Encoding.utf8, renderContent sorted⟩,
     Event.fileWrite ⟨pathJoin p "plugins.txt", Encoding.latin1, renderContent filtered⟩]

/-- `serialize()`: suppressed entirely while `this.mLoaded` is false
(the returned promise resolves immediately); otherwise the write is queued and
eventually performs `doSerialize`.  Which writes occur is modelled here
synchronously; the *timing* of the promise queue is modelled separately below
(`runSched`). -/
def serialize (s : PState) : PState × List Event :=
  if s.loaded then (s, doSerialize s) else (s, [])

/-- `delete this.mPlugins[key]`. -/
def removeKey (k : JSString) (m : PluginMap) : PluginMap :=
  m.filter (fun e => !decide (e.1 = k))

/-- `setItem`: replace the whole map, then serialize. -/
def setItem (s : PState) (m : PluginMap) : PState × List Event :=
  serialize { s with plugins := m }

/-- `removeItem`: delete one key, then serialize. -/
def removeItem (s : PState) (k : JSString) : PState × List Event :=
  serialize { s with plugins := removeKey k s.plugins }

/-- The `catch` branch of `deserialize`: log a warning and, while the retry
counter is positive, decrement it and schedule another attempt in 100 ms. -/
def onFailure (s : PState) : PState × List Event :=
  if 0 < s.retryCounter then
    ({ s with retryCounter := s.retryCounter - 1, refreshTimer := some 100 },
     [Event.logWarn, Event.schedRefresh 100])
  else (s, [Event.logWarn])

/-- The read/parse pipeline of `deserialize()` (everything up to the
assignment `this.mPlugins = newPlugins`), with file reads supplied by `read`
(`none` models an I/O failure of `fs.readFileAsync`); `none` as result models
the promise being rejected.  For the `'original'` format, phase one reads
`loadorder.txt` and seeds `newPlugins` with all names disabled; otherwise
phase one just reads `plugins.txt`.  A zero-length `plugins.txt` buffer is
rejected (`'empty file encountered'`) into the same catch branch as an I/O
failure.  Note the pipeline never consults the current in-memory map. -/
def deserializeCore (fmt : Option PluginFormat) (native : List JSString)
    (read : String → Option (List Char)) (p : String) : Option PluginMap :=
  let phaseOne : Option (PluginMap × List Char) :=
    if fmt = some PluginFormat.original then
      match read (pathJoin p "loadorder.txt") with
      | none => none
      | some d1 =>
        let np := initFromKeyList fmt native [] (filterFileData d1) false
        match read (pathJoin p "plugins.txt") with
        | none => none
        | some d2 => some (np, d2)
    else
      match read (pathJoin p "plugins.txt") with
      | none => none
      | some d => some ([], d)
  match phaseOne with
  | none => none
  | some (np, data) =>
    if data.isEmpty then none
    else some (initFromKeyList fmt native np (filterFileData data) true)

/-- `deserialize()`.  On success `mPlugins` is replaced unconditionally,
while `loaded`, the reset callback and the retry-counter reset run only when
a reset callback is registered; on failure the `catch` branch runs. -/
def deserialize (s : PState) (read : String → Option (List Char)) : PState × List Event :=
  match s.pluginPath with
  | none => (s, [])
  | some p =>
    match deserializeCore s.pluginFormat (s.nativePlugins.getD []) read p with
    | none => onFailure s
    | some np2 =>
      if s.resetCallback then
        ({ s with plugins := np2, loaded := true, retryCounter := retryCount },
         [Event.resetCalled])
      else ({ s with plugins := np2 }, [])

/-! ### Operation sequences (for temporal properties) -/

/-- One externally triggered operation on a bound persistor. -/
inductive Op
  | setItemOp (m : PluginMap)
  | removeItemOp (k : JSString)
  | deserializeOp (read : String → Option (List Char))

/-- Apply one operation. -/
def step (s : PState) : Op → PState × List Event
  | Op.setItemOp m => setItem s m
  | Op.removeItemOp k => removeItem s k
  | Op.deserializeOp read => deserialize s read

/-- Run a sequence of operations, concatenating the emitted events. -/
def runOps (s : PState) : List Op → PState × List Event
  | [] => (s, [])
  | op :: rest =>
    let r := step s op
    let rr := runOps r.1 rest
    (rr.1, r.2 ++ rr.2)

/-- `True` iff no file write occurs strictly before the first `resetCalled`
event of the trace. -/
def noWriteBeforeReset : List Event → Prop
  | [] => True
  | Event.resetCalled :: _ => True
  | Event.fileWrite _ :: _ => False
  | Event.logWarn :: rest => noWriteBeforeReset rest
  | Event.schedRefresh _ :: rest => noWriteBeforeReset rest

/-- Drive the reload/retry loop: run `deserialize`; while it leaves a refresh
scheduled, fire the timer (which nulls it and calls `deserialize` again).
Returns the final state, the number of `deserialize` attempts performed, and
the full event trace.  `fuel` bounds the recursion. -/
def driveReloads (read : String → Option (List Char)) :
    Nat → PState → PState × Nat × List Event
  | 0, s => (s, 0, [])
  | fuel + 1, s =>
    let r := deserialize s read
    match r.1.refreshTimer with
    | some _ =>
      let rest := driveReloads read fuel { r.1 with refreshTimer := none }
      (rest.1, rest.2.1 + 1, r.2 ++ rest.2.2)
    | none => (r.1, 1, r.2)

/-! ### Promise-queue timing model (for the write serializer)

`serialize()` chains each request onto `mSerializeQueue` with
`this.mSerializeQueue = this.mSerializeQueue.then(() => { this.doSerialize(); });`
The callback body is a block statement that *discards* the promise returned by
`doSerialize()`, so the chained promise resolves as soon as `doSerialize` has
merely been invoked — not when its writes complete.  The model below replays
the resulting Node/bluebird scheduling for `n` back-to-back requests: the
queue callbacks all run during the microtask phase (each one starting the
first file write, then resolving its promise immediately), and only afterwards
do the file-write completions arrive, FIFO, with each completion of
`loadorder.txt` starting the corresponding `plugins.txt` write. -/

/-- Outstanding I/O completions: the `loadorder.txt` or the `plugins.txt`
write of request `id` finishing. -/
inductive IoTask
  | loDone (id : Nat)
  | plDone (id : Nat)
deriving DecidableEq, Repr

/-- Trace events of the timing model. -/
inductive PEv
  | startW (id : Nat) (file : String)
  | doneW (id : Nat) (file : String)
  | resolved (id : Nat)
deriving DecidableEq, Repr

/-- Event-loop scheduler.  The first queue holds the ids of queued serialize
callbacks (microtasks — these all run first, in order, because each callback
resolves its chained promise on return); the second holds outstanding I/O
completions, delivered FIFO afterwards. -/
def runSched : Nat → List Nat → List IoTask → List PEv
  | 0, _, _ => []
  | fuel + 1, i :: mts, ios =>
    PEv.startW i "loadorder.txt" :: PEv.resolved i ::
      runSched fuel mts (ios ++ [IoTask.loDone i])
  | fuel + 1, [], IoTask.loDone i :: ios =>
    PEv.doneW i "loadorder.txt" :: PEv.startW i "plugins.txt" ::
      runSched fuel [] (ios ++ [IoTask.plDone i])
  | fuel + 1, [], IoTask.plDone i :: ios =>
    PEv.doneW i "plugins.txt" :: runSched fuel [] ios
  | _ + 1, [], [] => []

/-- The event trace produced by `n` serialize requests enqueued back-to-back
(while `loaded` is true and a path is bound). -/
def serializeTrace (n : Nat) : List PEv :=
  runSched (8 * n + 8) (List.range n) []

end PluginPersistor

namespace PluginPersistor

/-! ### Derived definitions used in claim statements -/

/-- The render-then-parse-then-reconcile pipeline for the `'original'`
format: serialize the map to the two file contents (`doSerialize`), then
parse them back the way `deserialize` does (order file first with
`enabled = false`, then the enabled file with `enabled = true`). -/
def roundTripOriginal (native : List JSString) (m : PluginMap) : PluginMap :=
  let sorted := sortedList native m
  let np1 := initFromKeyList (some PluginFormat.original) native []
    (filterFileData (renderContent sorted)) false
  initFromKeyList (some PluginFormat.original) native np1
    (filterFileData (renderContent (toPluginListOriginal m sorted))) true

/-- The render-then-parse-then-reconcile pipeline for the `'fallout4'`
(`AlternateOrdered`) format: serialize to the marker-bearing `plugins.txt`
content, then parse it back with `enabled = true` the way `deserialize`
does. -/
def roundTripFallout4 (native : List JSString) (m : PluginMap) : PluginMap :=
  let sorted := sortedList native m
  initFromKeyList (some PluginFormat.fallout4) native []
    (filterFileData (renderContent (toPluginListFallout4 m sorted))) true

/-- The map produced by inserting fresh entries for `names`, in order, with
enabled flags given by `g` and load orders counting up from `pos` — the
shape `initAux` produces on a run of fresh keys. -/
def freshMap (g : JSString → Bool) : Nat → List JSString → PluginMap
  | _, [] => []
  | pos, n :: rest => (n, ⟨g n, pos⟩) :: freshMap g (pos + 1) rest

/-- Overwrite `enabled := true` for every key of `keys` (in order) — the
shape `initAux` produces on a run of already-present keys in the
`'original'` format with `enabled = true`. -/
def setAllTrue (keys : List JSString) (m : PluginMap) : PluginMap :=
  keys.foldl (fun acc k => setEnabled k true acc) m

/-- The decoded plugin names appearing in the file(s) a reload reads:
for `'original'`, the lines of `loadorder.txt` followed by those of
`plugins.txt`; otherwise just the (marker-stripped) lines of
`plugins.txt`. -/
def namesInFiles (fmt : Option PluginFormat) (read : String → Option (List Char))
    (p : String) : List JSString :=
  (if fmt = some PluginFormat.original then
    ((read (pathJoin p "loadorder.txt")).map
      (fun d => (filterFileData d).map (decodeName fmt))).getD []
  else []) ++
  ((read (pathJoin p "plugins.txt")).map
    (fun d => (filterFileData d).map (decodeName fmt))).getD []

/-- Expected event trace of `c + 1` consecutive failing reload attempts
starting with retry counter `c`: every attempt logs a warning, and each
attempt with a positive counter schedules a 100 ms retry. -/
def failTrace : Nat → List Event
  | 0 => [Event.logWarn]
  | c + 1 => Event.logWarn :: Event.schedRefresh 100 :: failTrace c

/-! ### Concrete states for counterexamples and witnesses -/

/-- A bound `'fallout4'`-format state holding one enabled plugin. -/
def exF4State : PState :=
  { initialState with
      pluginPath := some "p"
      pluginFormat := some PluginFormat.fallout4
      nativePlugins := some []
      plugins := [("ModX".data, ⟨true, 0⟩), ("ModY".data, ⟨false, 1⟩)]
      loaded := true
      resetCallback := true }

/-- A bound `'original'`-format state holding one plugin and a native set. -/
def exOrigState : PState :=
  { initialState with
      pluginPath := some "p"
      pluginFormat := some PluginFormat.original
      nativePlugins := some ["skyrim.esm".data]
      plugins := [("ModA".data, ⟨true, 0⟩)]
      loaded := true
      resetCallback := true
      watch := true }

/-- A read function whose `plugins.txt` is a bare header (zero lines after
stripping it), as a well-formed but empty on-disk state would look. -/
def headerOnlyRead : String → Option (List Char) := fun f =>
  if f = "p/plugins.txt" then some (renderContent []) else none

/-- A read function returning the two `'original'`-format files of the
spec example scenario (`ModA`, `ModB`, `ModC` with `ModB` disabled). -/
def exOrigRead : String → Option (List Char) := fun f =>
  if f = "p/loadorder.txt" then
    some (renderContent ["ModA".data, "ModB".data, "ModC".data])
  else if f = "p/plugins.txt" then
    some (renderContent ["ModA".data, "ModC".data])
  else none

/-- A read function failing every read, as a missing directory would. -/
def failRead : String → Option (List Char) := fun _ => none

/-- A read function whose `plugins.txt` is a zero-byte file. -/
def emptyFileRead : String → Option (List Char) := fun f =>
  if f = "p/plugins.txt" then some [] else none

/-- A map whose single name starts with `'#'` — lexically a comment line. -/
def hashNameMap : PluginMap := [(['#', 'm'], ⟨false, 0⟩)]

/-- The run of fresh entries `initAux` appends for a list of keys none of
which is native or already present: decoded names with their computed
enabled flags, load orders counting up from `pos`. -/
def freshFrom (fmt : Option PluginFormat) (e : Bool) : Nat → List JSString → PluginMap
  | _, [] => []
  | pos, key :: rest =>
    (decodeName fmt key, ⟨keyEnabledOf fmt e key, pos⟩) ::
      freshFrom fmt e (pos + 1) rest

/-- A witness map with unique well-formed names and distinct load orders. -/
def exGoodMap : PluginMap :=
  [("Beta.esp".data, ⟨false, 7⟩), ("Alpha.esp".data, ⟨true, 2⟩)]

/-- Position of the first occurrence of `n` (the load order a parsed name
receives when fresh entries are numbered from 0 in list order). -/
def idxOf (n : JSString) : List JSString → Nat
  | [] => 0
  | k :: rest => if k = n then 0 else idxOf n rest + 1

/-- A concrete native set (already lower-cased, as supplied per game). -/
def exNative : List JSString := ["skyrim.esm".data]

/-- The map parsed from `exOrigRead` (spec example scenario 8). -/
def exParsedMap : PluginMap :=
  [("ModA".data, ⟨true, 0⟩), ("ModB".data, ⟨false, 1⟩), ("ModC".data, ⟨true, 2⟩)]

/-- A freshly bound state: binding set, but no reload has succeeded yet. -/
def exUnloadedState : PState :=
  { initialState with
      pluginPath := some "p"
      pluginFormat := some PluginFormat.fallout4
      nativePlugins := some []
      resetCallback := true }

/-- A concrete operation sequence issued before any successful reload. -/
def exOps : List Op :=
  [Op.setItemOp [("ModZ".data, ⟨true, 0⟩)], Op.deserializeOp failRead,
   Op.removeItemOp "ModZ".data]

end PluginPersistor

namespace PluginPersistor

/-! ## Helper lemmas -/

theorem serialize_unloaded (s : PState) (h : s.loaded = false) :
    serialize s = (s, []) := by
  simp [serialize, h]

theorem deserialize_no_path (s : PState) (read : String → Option (List Char))
    (hp : s.pluginPath = none) : deserialize s read = (s, []) := by
  simp only [deserialize, hp]

theorem deserialize_of_core_none {s : PState} {read : String → Option (List Char)}
    {p : String} (hp : s.pluginPath = some p)
    (hcore : deserializeCore s.pluginFormat (s.nativePlugins.getD []) read p = none) :
    deserialize s read = onFailure s := by
  simp only [deserialize, hp, hcore]

theorem deserialize_of_core_some {s : PState} {read : String → Option (List Char)}
    {p : String} {np : PluginMap} (hp : s.pluginPath = some p)
    (hcore : deserializeCore s.pluginFormat (s.nativePlugins.getD []) read p = some np) :
    deserialize s read =
      if s.resetCallback then
        ({ s with plugins := np, loaded := true, retryCounter := retryCount },
         [Event.resetCalled])
      else ({ s with plugins := np }, []) := by
  simp only [deserialize, hp, hcore]

theorem deserializeCore_of_fail_read {fmt : Option PluginFormat}
    {native : List JSString} {read : String → Option (List Char)} {p : String}
    (hread : ∀ f, read f = none) :
    deserializeCore fmt native read p = none := by
  simp only [deserializeCore, hread]
  by_cases h : fmt = some PluginFormat.original <;> simp [h]

theorem deserializeCore_of_empty_data {fmt : Option PluginFormat}
    {native : List JSString} {read : String → Option (List Char)} {p : String}
    (hdata : read (pathJoin p "plugins.txt") = some []) :
    deserializeCore fmt native read p = none := by
  simp only [deserializeCore, hdata]
  by_cases h : fmt = some PluginFormat.original
  · simp only [if_pos h]
    cases hlo : read (pathJoin p "loadorder.txt") <;> simp [hlo]
  · simp [h]

theorem deserializeCore_not_original {fmt : Option PluginFormat}
    {native : List JSString} {read : String → Option (List Char)} {p : String}
    {d : List Char} (hfmt : fmt ≠ some PluginFormat.original)
    (hdata : read (pathJoin p "plugins.txt") = some d)
    (hne : d.isEmpty = false) :
    deserializeCore fmt native read p =
      some (initFromKeyList fmt native [] (filterFileData d) true) := by
  simp only [deserializeCore, hdata, if_neg hfmt]
  simp [hne]

theorem deserializeCore_original {native : List JSString}
    {read : String → Option (List Char)} {p : String} {d1 d2 : List Char}
    (h1 : read (pathJoin p "loadorder.txt") = some d1)
    (h2 : read (pathJoin p "plugins.txt") = some d2)
    (hne : d2.isEmpty = false) :
    deserializeCore (some PluginFormat.original) native read p =
      some (initFromKeyList (some PluginFormat.original) native
        (initFromKeyList (some PluginFormat.original) native []
          (filterFileData d1) false)
        (filterFileData d2) true) := by
  simp only [deserializeCore, h1, h2, if_pos rfl]
  simp [hne]

/-! ## Claims -/

/-- **C1** (evidence of a code bug): the claim demands FIFO writes with at
most one write in flight, each returned promise resolving only after its
write (and all earlier ones) completed.  The queue callback
`() => { this.doSerialize(); }` discards the promise `doSerialize` returns,
so `mSerializeQueue` resolves as soon as `doSerialize` is *invoked*.  In the
resulting schedule for two back-to-back requests, the second request's
`loadorder.txt` write starts before the first request's writes complete (two
writes in flight at once), and each request's promise resolves before even
its own first write completes. -/
theorem c1_serialize_queue_overlaps_writes :
    (serializeTrace 2).indexOf (PEv.startW 1 "loadorder.txt") <
      (serializeTrace 2).indexOf (PEv.doneW 0 "loadorder.txt") ∧
    PEv.startW 1 "loadorder.txt" ∈ serializeTrace 2 ∧
    PEv.doneW 0 "loadorder.txt" ∈ serializeTrace 2 ∧
    (serializeTrace 2).indexOf (PEv.resolved 0) <
      (serializeTrace 2).indexOf (PEv.doneW 0 "loadorder.txt") ∧
    (serializeTrace 2).indexOf (PEv.resolved 1) <
      (serializeTrace 2).indexOf (PEv.doneW 1 "plugins.txt") ∧
    PEv.doneW 1 "plugins.txt" ∈ serializeTrace 2 := by
  decide

/-- **C2** (counterexample): in the `'fallout4'` (`AlternateOrdered`) format
`doSerialize` does *not* produce only `plugins.txt` — it also writes
`loadorder.txt`, contradicting "no other file (in particular no
loadorder.txt) is written for that format". -/
theorem c2_counterexample :
    (doSerialize exF4State).length = 2 ∧
    Event.fileWrite ⟨pathJoin "p" "loadorder.txt", Encoding.utf8,
      renderContent ["ModX".data, "ModY".data]⟩ ∈ doSerialize exF4State ∧
    ((doSerialize exF4State).all fun e =>
      match e with
      | Event.fileWrite w => w.fileName == pathJoin "p" "plugins.txt"
      | _ => true) = false := by
  decide

/-- **C3** (counterexample): `stopSync` does *not* discard the EntryMap —
the map survives unbind, and a subsequent `getItem` returns the serialization
of the retained (non-empty) map, not of an empty one. -/
theorem c3_counterexample :
    (stopSync exOrigState).plugins = exOrigState.plugins ∧
    getItemResult (stopSync exOrigState) ≠ ([] : PluginMap) := by
  decide

/-- **C3** (amended): after `stopSync` the binding (path, format, native set)
is cleared and the watcher is closed, but the EntryMap is *retained*: a
subsequent `getItem` returns the serialization of the retained map (until the
next bind/reload replaces it). -/
theorem c3_unbind_clears_binding_keeps_map (s : PState) :
    stopSync s = { s with pluginPath := none, pluginFormat := none,
                          nativePlugins := none, watch := false } ∧
    getItemResult (stopSync s) = getItemResult s :=
  ⟨rfl, rfl⟩

/-- **C4** (counterexample): content that is zero-length *after stripping the
comment header* is not treated as an error: a bare-header `plugins.txt` is
accepted as a valid empty map — the reload succeeds (`loaded` set, retry
counter at maximum, reset callback fired, no warning, no retry scheduled). -/
theorem c4_counterexample :
    filterFileData (renderContent []) = [] ∧
    (renderContent []).isEmpty = false ∧
    deserialize exF4State headerOnlyRead =
      ({ exF4State with plugins := [], retryCounter := retryCount },
       [Event.resetCalled]) := by
  decide

/-- **C4** (amended): only *raw* zero-length file content (a zero-byte read
of `plugins.txt`, before any header stripping) is treated as the
`EmptyContent` error feeding the same retry path as an I/O failure; content
that is non-empty but strips to nothing (bare header) is accepted as a valid
empty map with no error handling. -/
theorem c4_raw_empty_content_is_error (s : PState) (p : String)
    (read : String → Option (List Char)) (hp : s.pluginPath = some p) :
    (read (pathJoin p "plugins.txt") = some [] →
      deserialize s read = onFailure s) ∧
    (s.pluginFormat = some PluginFormat.fallout4 →
      read (pathJoin p "plugins.txt") = some (renderContent []) →
        (deserialize s read).1.plugins = [] ∧
        Event.logWarn ∉ (deserialize s read).2 ∧
        (deserialize s read).1.refreshTimer = s.refreshTimer) := by
  constructor
  · intro hdata
    exact deserialize_of_core_none hp (deserializeCore_of_empty_data hdata)
  · intro hfmt hdata
    have hfd : filterFileData (renderContent []) = [] := by decide
    have hcore : deserializeCore s.pluginFormat (s.nativePlugins.getD []) read p =
        some [] := by
      have h := @deserializeCore_not_original s.pluginFormat
        (s.nativePlugins.getD []) read p (renderContent [])
        (by rw [hfmt]; simp) hdata (by decide)
      rw [h, hfd]
      rfl
    rw [deserialize_of_core_some hp hcore]
    by_cases hcb : s.resetCallback = true <;> simp [hcb]

/-- Witness for `c4_raw_empty_content_is_error` at a concrete state and a
zero-byte `plugins.txt`. -/
theorem c4_raw_empty_content_is_error_witness :
    (emptyFileRead (pathJoin "p" "plugins.txt") = some [] →
      deserialize exF4State emptyFileRead = onFailure exF4State) ∧
    (exF4State.pluginFormat = some PluginFormat.fallout4 →
      emptyFileRead (pathJoin "p" "plugins.txt") = some (renderContent []) →
        (deserialize exF4State emptyFileRead).1.plugins = [] ∧
        Event.logWarn ∉ (deserialize exF4State emptyFileRead).2 ∧
        (deserialize exF4State emptyFileRead).1.refreshTimer =
          exF4State.refreshTimer) :=
  c4_raw_empty_content_is_error exF4State "p" emptyFileRead rfl

end PluginPersistor

namespace PluginPersistor

theorem onFailure_pos {s : PState} (h : 0 < s.retryCounter) :
    onFailure s = ({ s with retryCounter := s.retryCounter - 1,
                            refreshTimer := some 100 },
                   [Event.logWarn, Event.schedRefresh 100]) := by
  simp [onFailure, h]

theorem onFailure_zero {s : PState} (h : s.retryCounter = 0) :
    onFailure s = (s, [Event.logWarn]) := by
  simp [onFailure, h]

/-- **C5**: whenever a reload succeeds (observable as the reset callback
firing) and a reset callback is registered, the EntryMap is replaced with the
map freshly parsed from the files (`deserializeCore`), `loaded` is set,
the retry counter is reset to its maximum, and the callback fires exactly
once. -/
theorem c5_successful_reload (s : PState) (read : String → Option (List Char))
    (hcb : s.resetCallback = true)
    (hsucc : Event.resetCalled ∈ (deserialize s read).2) :
    (deserialize s read).1.loaded = true ∧
    (deserialize s read).1.retryCounter = retryCount ∧
    (deserialize s read).2 = [Event.resetCalled] ∧
    ∃ p np, s.pluginPath = some p ∧
      deserializeCore s.pluginFormat (s.nativePlugins.getD []) read p = some np ∧
      (deserialize s read).1.plugins = np := by
  cases hp : s.pluginPath with
  | none =>
    rw [deserialize_no_path s read hp] at hsucc
    simp at hsucc
  | some p =>
    cases hcore : deserializeCore s.pluginFormat (s.nativePlugins.getD []) read p with
    | none =>
      rw [deserialize_of_core_none hp hcore] at hsucc
      unfold onFailure at hsucc
      by_cases h : 0 < s.retryCounter <;> simp [h] at hsucc
    | some np =>
      rw [deserialize_of_core_some hp hcore, if_pos hcb]
      exact ⟨rfl, rfl, rfl, p, np, rfl, hcore, rfl⟩

/-- Witness for `c5_successful_reload`: the `'original'`-format example
scenario reload succeeds and shows all four effects. -/
theorem c5_successful_reload_witness :
    (deserialize exOrigState exOrigRead).1.loaded = true ∧
    (deserialize exOrigState exOrigRead).1.retryCounter = retryCount ∧
    (deserialize exOrigState exOrigRead).2 = [Event.resetCalled] ∧
    ∃ p np, exOrigState.pluginPath = some p ∧
      deserializeCore exOrigState.pluginFormat (exOrigState.nativePlugins.getD [])
        exOrigRead p = some np ∧
      (deserialize exOrigState exOrigRead).1.plugins = np :=
  c5_successful_reload exOrigState exOrigRead rfl (by decide)

theorem noWriteBeforeReset_append {a b : List Event} (ha : noWriteBeforeReset a)
    (hb : Event.resetCalled ∉ a → noWriteBeforeReset b) :
    noWriteBeforeReset (a ++ b) := by
  induction a with
  | nil => exact hb (by simp)
  | cons e rest ih =>
    cases e with
    | resetCalled => exact trivial
    | fileWrite w => exact absurd ha (by simp [noWriteBeforeReset])
    | logWarn =>
      have ha' : noWriteBeforeReset rest := ha
      exact ih ha' (fun hn => hb (by simp [hn]))
    | schedRefresh ms =>
      have ha' : noWriteBeforeReset rest := ha
      exact ih ha' (fun hn => hb (by simp [hn]))

theorem step_unloaded (s : PState) (op : Op) (h : s.loaded = false) :
    noWriteBeforeReset (step s op).2 ∧
    (Event.resetCalled ∉ (step s op).2 → (step s op).1.loaded = false) := by
  cases op with
  | setItemOp m =>
    have hs : ({ s with plugins := m } : PState).loaded = false := h
    simp only [step, setItem, serialize_unloaded _ hs]
    exact ⟨trivial, fun _ => h⟩
  | removeItemOp k =>
    have hs : ({ s with plugins := removeKey k s.plugins } : PState).loaded = false := h
    simp only [step, removeItem, serialize_unloaded _ hs]
    exact ⟨trivial, fun _ => h⟩
  | deserializeOp read =>
    cases hp : s.pluginPath with
    | none =>
      simp only [step, deserialize_no_path s read hp]
      exact ⟨trivial, fun _ => h⟩
    | some p =>
      cases hcore : deserializeCore s.pluginFormat (s.nativePlugins.getD []) read p with
      | none =>
        simp only [step, deserialize_of_core_none hp hcore, onFailure]
        by_cases hr : 0 < s.retryCounter <;> simp [hr, noWriteBeforeReset] <;>
          exact h
      | some np =>
        simp only [step, deserialize_of_core_some hp hcore]
        by_cases hcb : s.resetCallback = true <;> simp [hcb, noWriteBeforeReset]
        all_goals exact h

theorem runOps_unloaded (ops : List Op) : ∀ s : PState, s.loaded = false →
    noWriteBeforeReset (runOps s ops).2 := by
  induction ops with
  | nil => intro s _; exact trivial
  | cons op rest ih =>
    intro s h
    have hstep := step_unloaded s op h
    simp only [runOps]
    exact noWriteBeforeReset_append hstep.1 (fun hn => ih _ (hstep.2 hn))

/-- **C6**: while `loaded` is false every serialize request is suppressed and
resolves immediately without touching the files, and in any run of
operations from an unloaded state no file write ever occurs before the first
successful reload (the first `resetCalled` event — the only event that can
accompany `loaded` becoming true). -/
theorem c6_no_write_before_first_reload (s : PState) (ops : List Op)
    (h : s.loaded = false) :
    serialize s = (s, []) ∧ noWriteBeforeReset (runOps s ops).2 :=
  ⟨serialize_unloaded s h, runOps_unloaded ops s h⟩

/-- Witness for `c6_no_write_before_first_reload` on a freshly bound state
and a concrete operation sequence. -/
theorem c6_no_write_before_first_reload_witness :
    serialize exUnloadedState = (exUnloadedState, []) ∧
    noWriteBeforeReset (runOps exUnloadedState exOps).2 :=
  c6_no_write_before_first_reload exUnloadedState exOps rfl

end PluginPersistor

namespace PluginPersistor

theorem driveReloads_fail (read : String → Option (List Char))
    (hread : ∀ f, read f = none) :
    ∀ (c fuel : Nat) (s : PState) (p : String), s.pluginPath = some p →
      s.retryCounter = c → s.refreshTimer = none → c + 1 ≤ fuel →
      driveReloads read fuel s =
        ({ s with retryCounter := 0 }, c + 1, failTrace c) := by
  intro c
  induction c with
  | zero =>
    intro fuel s p hp hrc ht hf
    match fuel, hf with
    | fuel + 1, _ =>
      have hd : deserialize s read = (s, [Event.logWarn]) := by
        rw [deserialize_of_core_none hp (deserializeCore_of_fail_read hread)]
        exact onFailure_zero hrc
      obtain ⟨f1, f2, f3, f4, f5, f6, f7, f8, f9⟩ := s
      dsimp only at hrc ht
      subst hrc
      subst ht
      simp [driveReloads, hd, failTrace]
  | succ c ih =>
    intro fuel s p hp hrc ht hf
    match fuel, hf with
    | fuel + 1, hf =>
      obtain ⟨f1, f2, f3, f4, f5, f6, f7, f8, f9⟩ := s
      dsimp only at hrc ht hp
      subst hrc
      subst ht
      have hd : deserialize ⟨f1, f2, f3, f4, c + 1, f6, f7, f8, none⟩ read =
          (⟨f1, f2, f3, f4, c, f6, f7, f8, some 100⟩,
           [Event.logWarn, Event.schedRefresh 100]) := by
        rw [deserialize_of_core_none hp (deserializeCore_of_fail_read hread)]
        simp [onFailure]
      have ihr := ih fuel ⟨f1, f2, f3, f4, c, f6, f7, f8, none⟩ p hp rfl rfl
        (by omega)
      simp only [driveReloads, hd]
      simp only [ihr]
      simp [failTrace]

/-- **C7**: with every read failing, a reload started with the full retry
budget performs exactly `retryCount + 1 = 4` attempts — the initial one plus
exactly 3 retries, each scheduled 100 ms apart — independently of how long
the loop is driven, after which no further refresh is pending and the
EntryMap still holds its pre-failure value. -/
theorem c7_retry_exhaustion (s : PState) (p : String)
    (read : String → Option (List Char)) (hp : s.pluginPath = some p)
    (hread : ∀ f, read f = none) (hrc : s.retryCounter = retryCount)
    (ht : s.refreshTimer = none) :
    (∀ fuel, retryCount + 1 ≤ fuel →
      driveReloads read fuel s =
        ({ s with retryCounter := 0 }, retryCount + 1, failTrace retryCount)) ∧
    ((failTrace retryCount).filter fun e =>
        match e with
        | Event.schedRefresh _ => true
        | _ => false).length = retryCount ∧
    (∀ ms, Event.schedRefresh ms ∈ failTrace retryCount → ms = 100) ∧
    (driveReloads read 10 s).1.plugins = s.plugins ∧
    (driveReloads read 10 s).1.refreshTimer = none := by
  have hmain := driveReloads_fail read hread retryCount 10 s p hp hrc ht (by decide)
  refine ⟨fun fuel hf => driveReloads_fail read hread retryCount fuel s p hp hrc ht hf,
    by decide, ?_, ?_, ?_⟩
  · intro ms hms
    have hconc : failTrace retryCount =
        [Event.logWarn, Event.schedRefresh 100, Event.logWarn,
         Event.schedRefresh 100, Event.logWarn, Event.schedRefresh 100,
         Event.logWarn] := by decide
    rw [hconc] at hms
    simp at hms
    omega
  · rw [hmain]
  · rw [hmain]
    exact ht

/-- Witness for `c7_retry_exhaustion` at a concrete bound state. -/
theorem c7_retry_exhaustion_witness :
    (∀ fuel, retryCount + 1 ≤ fuel →
      driveReloads failRead fuel exF4State =
        ({ exF4State with retryCounter := 0 }, retryCount + 1,
         failTrace retryCount)) ∧
    ((failTrace retryCount).filter fun e =>
        match e with
        | Event.schedRefresh _ => true
        | _ => false).length = retryCount ∧
    (∀ ms, Event.schedRefresh ms ∈ failTrace retryCount → ms = 100) ∧
    (driveReloads failRead 10 exF4State).1.plugins = exF4State.plugins ∧
    (driveReloads failRead 10 exF4State).1.refreshTimer = none :=
  c7_retry_exhaustion exF4State "p" failRead rfl (fun _ => rfl) rfl rfl

end PluginPersistor

namespace PluginPersistor

/-! ## Line-level round-trip lemmas -/

theorem norm_no_nl : ∀ {a : List Char}, '\n' ∉ a → normNewlines a = a := by
  intro a
  induction a with
  | nil => intro _; rfl
  | cons c rest ih =>
    intro h
    cases rest with
    | nil => rfl
    | cons d rest2 =>
      have hd : d ≠ '\n' := fun hh => h (by simp [hh])
      have hcd : ¬(c = '\r' ∧ d = '\n') := by
        rintro ⟨-, h2⟩
        exact hd h2
      simp only [normNewlines, if_neg hcd]
      congr 1
      exact ih (fun hm => h (List.mem_cons_of_mem c hm))

theorem norm_append_crlf {b : List Char} :
    ∀ {a : List Char}, '\n' ∉ a →
      normNewlines (a ++ '\r' :: '\n' :: b) = a ++ '\n' :: normNewlines b := by
  intro a
  induction a with
  | nil => intro _; simp [normNewlines]
  | cons c rest ih =>
    intro h
    have hrest : '\n' ∉ rest := fun hm => h (List.mem_cons_of_mem c hm)
    cases rest with
    | nil =>
      have hcr : ¬(c = '\r' ∧ '\r' = '\n') := by
        rintro ⟨-, hh⟩
        exact absurd hh (by decide)
      simp only [List.cons_append, List.nil_append, normNewlines, if_neg hcr]
      simp [normNewlines]
    | cons d rest2 =>
      have hd : d ≠ '\n' := fun hh => h (by simp [hh])
      have hcd : ¬(c = '\r' ∧ d = '\n') := by
        rintro ⟨-, hh⟩
        exact hd hh
      simp only [List.cons_append, normNewlines, if_neg hcd, List.append_eq]
      rw [← List.cons_append, ih hrest]
      simp

theorem splitNl_no_nl : ∀ {a : List Char}, '\n' ∉ a → splitNl a = [a] := by
  intro a
  induction a with
  | nil => intro _; rfl
  | cons c rest ih =>
    intro h
    have hc : c ≠ '\n' := fun hh => h (by simp [hh])
    have hrest : '\n' ∉ rest := fun hm => h (List.mem_cons_of_mem c hm)
    simp only [splitNl, if_neg hc, ih hrest]

theorem splitNl_append_nl {b : List Char} :
    ∀ {a : List Char}, '\n' ∉ a → splitNl (a ++ '\n' :: b) = a :: splitNl b := by
  intro a
  induction a with
  | nil => intro _; simp [splitNl]
  | cons c rest ih =>
    intro h
    have hc : c ≠ '\n' := fun hh => h (by simp [hh])
    have hrest : '\n' ∉ rest := fun hm => h (List.mem_cons_of_mem c hm)
    simp only [List.cons_append, splitNl, if_neg hc, List.append_eq, ih hrest]

theorem joinCrlf_single (x : List Char) : joinCrlf [x] = x := rfl

theorem joinCrlf_cons (x y : List Char) (ys : List (List Char)) :
    joinCrlf (x :: y :: ys) = x ++ '\r' :: '\n' :: joinCrlf (y :: ys) := rfl

theorem splitLines_joinCrlf : ∀ {ls : List (List Char)},
    (∀ l ∈ ls, '\n' ∉ l) → ls ≠ [] → splitLines (joinCrlf ls) = ls := by
  intro ls
  induction ls with
  | nil => intro _ hne; exact absurd rfl hne
  | cons x xs ih =>
    intro h _
    have hx : '\n' ∉ x := h x (by simp)
    cases xs with
    | nil =>
      simp only [joinCrlf_single, splitLines, norm_no_nl hx, splitNl_no_nl hx]
    | cons y ys =>
      have hxs : ∀ l ∈ y :: ys, '\n' ∉ l := fun l hl => h l (by simp [hl])
      simp only [joinCrlf_cons, splitLines, norm_append_crlf hx]
      rw [splitNl_append_nl hx]
      have hrec := ih hxs (by simp)
      simp only [splitLines] at hrec
      rw [hrec]

theorem splitLines_renderContent {ls : List (List Char)}
    (h : ∀ l ∈ ls, '\n' ∉ l) :
    splitLines (renderContent ls) =
      headerLine :: (if ls = [] then [[]] else ls) := by
  have hhdr : '\n' ∉ headerLine := by decide
  cases ls with
  | nil =>
    simp only [renderContent, splitLines]
    have h1 : normNewlines (headerLine ++ '\r' :: '\n' :: joinCrlf []) =
        headerLine ++ '\n' :: normNewlines [] := norm_append_crlf hhdr
    rw [h1]
    have h2 : splitNl (headerLine ++ '\n' :: ([] : List Char)) =
        headerLine :: splitNl [] := splitNl_append_nl hhdr
    simp only [normNewlines] at *
    rw [h2]
    rfl
  | cons x xs =>
    simp only [renderContent, splitLines, norm_append_crlf hhdr, if_neg
      (by simp : ¬x :: xs = [])]
    rw [splitNl_append_nl hhdr]
    have hrec := splitLines_joinCrlf h (by simp)
    simp only [splitLines] at hrec
    rw [hrec]

theorem filterFileData_renderContent {ls : List (List Char)}
    (h : ∀ l ∈ ls, '\n' ∉ l ∧ keepLine l = true) :
    filterFileData (renderContent ls) = ls := by
  have h1 : ∀ l ∈ ls, '\n' ∉ l := fun l hl => (h l hl).1
  unfold filterFileData
  rw [splitLines_renderContent h1]
  have hhdr : keepLine headerLine = false := by decide
  by_cases hls : ls = []
  · subst hls
    simp only [if_pos rfl]
    decide
  · rw [if_neg hls]
    have hh : List.filter keepLine (headerLine :: ls) = List.filter keepLine ls := by
      simp [List.filter, hhdr]
    rw [hh, List.filter_eq_self.mpr (fun a ha => (h a ha).2)]

end PluginPersistor

namespace PluginPersistor

/-! ## `plookup` / `setEnabled` / `initAux` lemmas -/

theorem plookup_append (n : JSString) (m1 m2 : PluginMap) :
    plookup n (m1 ++ m2) =
      match plookup n m1 with
      | some v => some v
      | none => plookup n m2 := by
  induction m1 with
  | nil => rfl
  | cons kv rest ih =>
    obtain ⟨k1, e1⟩ := kv
    by_cases h : k1 = n <;> simp [plookup, h, ih]

theorem plookup_setEnabled (n k : JSString) (v : Bool) (m : PluginMap) :
    plookup n (setEnabled k v m) =
      if k = n then (plookup n m).map (fun e => { e with enabled := v })
      else plookup n m := by
  induction m with
  | nil => by_cases h : k = n <;> simp [setEnabled, plookup, h]
  | cons kv rest ih =>
    obtain ⟨k1, e1⟩ := kv
    by_cases h1 : k1 = k
    · subst h1
      by_cases h2 : k1 = n
      · subst h2
        simp [setEnabled, plookup]
      · simp [setEnabled, plookup, h2]
    · by_cases h2 : k1 = n
      · subst h2
        have hk : ¬k = k1 := fun he => h1 he.symm
        simp [setEnabled, plookup, h1, hk]
      · simp [setEnabled, plookup, h1, h2, ih]

theorem jsKeys_setEnabled (k : JSString) (v : Bool) (m : PluginMap) :
    jsKeys (setEnabled k v m) = jsKeys m := by
  induction m with
  | nil => rfl
  | cons kv rest ih =>
    obtain ⟨k1, e1⟩ := kv
    by_cases h : k1 = k <;> simp [setEnabled, jsKeys, h] <;>
      simpa [jsKeys] using ih

theorem jsKeys_freshFrom (fmt : Option PluginFormat) (e : Bool) :
    ∀ (pos : Nat) (keys : List JSString),
      jsKeys (freshFrom fmt e pos keys) = keys.map (decodeName fmt) := by
  intro pos keys
  induction keys generalizing pos with
  | nil => rfl
  | cons k rest ih => simp [freshFrom, jsKeys, ih] at *; exact ih _

theorem plookup_freshFrom_not_mem (fmt : Option PluginFormat) (e : Bool)
    (n : JSString) :
    ∀ (pos : Nat) (keys : List JSString), n ∉ keys.map (decodeName fmt) →
      plookup n (freshFrom fmt e pos keys) = none := by
  intro pos keys
  induction keys generalizing pos with
  | nil => intro _; rfl
  | cons k rest ih =>
    intro h
    have h1 : decodeName fmt k ≠ n := fun he => h (by simp [he])
    have h2 : n ∉ rest.map (decodeName fmt) := fun hm => h (by simp [hm])
    simp only [freshFrom, plookup, if_neg h1]
    exact ih _ h2

theorem initAux_fresh (fmt : Option PluginFormat) (native : List JSString)
    (e : Bool) :
    ∀ (keys : List JSString) (plugins : PluginMap) (pos : Nat),
      (∀ k ∈ keys, toLowerStr (decodeName fmt k) ∉ native) →
      (∀ k ∈ keys, plookup (decodeName fmt k) plugins = none) →
      (keys.map (decodeName fmt)).Nodup →
      initAux fmt native plugins pos keys e =
        plugins ++ freshFrom fmt e pos keys := by
  intro keys
  induction keys with
  | nil => intro plugins pos _ _ _; simp [initAux, freshFrom]
  | cons k rest ih =>
    intro plugins pos h1 h2 h3
    have hk1 : toLowerStr (decodeName fmt k) ∉ native := h1 k (by simp)
    have hk2 : plookup (decodeName fmt k) plugins = none := h2 k (by simp)
    simp only [initAux, if_neg hk1, hk2]
    have h3' : (rest.map (decodeName fmt)).Nodup := by
      simp only [List.map_cons, List.nodup_cons] at h3
      exact h3.2
    have hknotin : decodeName fmt k ∉ rest.map (decodeName fmt) := by
      simp only [List.map_cons, List.nodup_cons] at h3
      exact h3.1
    rw [ih (plugins ++ [(decodeName fmt k, ILoadOrder.mk (keyEnabledOf fmt e k) pos)]) (pos + 1)
      (fun k' hk' => h1 k' (by simp [hk']))
      (fun k' hk' => by
        rw [plookup_append, h2 k' (by simp [hk'])]
        have : decodeName fmt k ≠ decodeName fmt k' := fun he => by
          exact hknotin (he ▸ List.mem_map_of_mem (decodeName fmt) hk')
        simp [plookup, this])
      h3']
    simp [freshFrom, List.append_assoc]

theorem initAux_present (fmt : Option PluginFormat) (native : List JSString)
    (e : Bool) :
    ∀ (keys : List JSString) (plugins : PluginMap) (pos : Nat),
      (∀ k ∈ keys, toLowerStr (decodeName fmt k) ∉ native) →
      (∀ k ∈ keys, (plookup (decodeName fmt k) plugins).isSome = true) →
      initAux fmt native plugins pos keys e =
        keys.foldl
          (fun acc k => setEnabled (decodeName fmt k) (keyEnabledOf fmt e k) acc)
          plugins := by
  intro keys
  induction keys with
  | nil => intro plugins pos _ _; rfl
  | cons k rest ih =>
    intro plugins pos h1 h2
    have hk1 : toLowerStr (decodeName fmt k) ∉ native := h1 k (by simp)
    have hk2 := h2 k (by simp)
    obtain ⟨v, hv⟩ := Option.isSome_iff_exists.mp hk2
    simp only [initAux, if_neg hk1, hv, List.foldl_cons]
    exact ih _ pos (fun k' hk' => h1 k' (by simp [hk']))
      (fun k' hk' => by
        rw [plookup_setEnabled]
        by_cases he : decodeName fmt k = decodeName fmt k' <;>
          simp [he, Option.isSome_map]
        · rw [← he]; simp [hv]
        · exact h2 k' (by simp [hk']))

theorem plookup_setAllTrue (n : JSString) :
    ∀ (keys : List JSString) (m : PluginMap),
      plookup n (setAllTrue keys m) =
        if n ∈ keys then (plookup n m).map (fun e => { e with enabled := true })
        else plookup n m := by
  intro keys
  induction keys with
  | nil => intro m; simp [setAllTrue]
  | cons k rest ih =>
    intro m
    have hfold : setAllTrue (k :: rest) m = setAllTrue rest (setEnabled k true m) := rfl
    rw [hfold, ih (setEnabled k true m), plookup_setEnabled]
    by_cases h2 : k = n
    · subst h2
      by_cases h1 : k ∈ rest <;> simp [h1] <;> cases plookup k m <;> rfl
    · have h2' : ¬n = k := fun he => h2 he.symm
      simp [h2, h2', List.mem_cons]

end PluginPersistor

namespace PluginPersistor

theorem plookup_initAux_native (fmt : Option PluginFormat)
    (native : List JSString) (n : JSString) (hn : toLowerStr n ∈ native) :
    ∀ (keys : List JSString) (plugins : PluginMap) (pos : Nat) (e : Bool),
      plookup n (initAux fmt native plugins pos keys e) = plookup n plugins := by
  intro keys
  induction keys with
  | nil => intro plugins pos e; rfl
  | cons k rest ih =>
    intro plugins pos e
    simp only [initAux]
    by_cases hk : toLowerStr (decodeName fmt k) ∈ native
    · rw [if_pos hk]
      exact ih plugins pos e
    · rw [if_neg hk]
      have hne : decodeName fmt k ≠ n := fun he => hk (he ▸ hn)
      cases hpk : plookup (decodeName fmt k) plugins with
      | some v =>
        rw [ih _ pos e, plookup_setEnabled, if_neg hne]
      | none =>
        rw [ih _ (pos + 1) e, plookup_append]
        cases plookup n plugins <;> simp [plookup, hne]

theorem plookup_initAux_isSome (fmt : Option PluginFormat)
    (native : List JSString) (e : Bool) :
    ∀ (keys : List JSString) (plugins : PluginMap) (pos : Nat) (n : JSString),
      (plookup n (initAux fmt native plugins pos keys e)).isSome = true ↔
        ((plookup n plugins).isSome = true ∨
          (toLowerStr n ∉ native ∧ n ∈ keys.map (decodeName fmt))) := by
  intro keys
  induction keys with
  | nil => intro plugins pos n; simp [initAux]
  | cons k rest ih =>
    intro plugins pos n
    simp only [initAux]
    by_cases hk : toLowerStr (decodeName fmt k) ∈ native
    · rw [if_pos hk, ih]
      constructor
      · rintro (h | ⟨hn, hm⟩)
        · exact Or.inl h
        · exact Or.inr ⟨hn, by simp [hm]⟩
      · rintro (h | ⟨hn, hm⟩)
        · exact Or.inl h
        · rcases List.mem_map.mp hm with ⟨a, ha, hae⟩
          rcases List.mem_cons.mp ha with he | ha2
          · subst he
            rw [← hae] at hn
            exact absurd hk hn
          · exact Or.inr ⟨hn, List.mem_map.mpr ⟨a, ha2, hae⟩⟩
    · rw [if_neg hk]
      cases hpk : plookup (decodeName fmt k) plugins with
      | some v =>
        rw [ih]
        by_cases he : decodeName fmt k = n
        · subst he
          simp [plookup_setEnabled, hpk, hk]
        · have he' : ¬n = decodeName fmt k := fun hh => he hh.symm
          simp [plookup_setEnabled, he, he', List.mem_cons]
      | none =>
        rw [ih, plookup_append]
        by_cases he : decodeName fmt k = n
        · subst he
          simp [hpk, plookup, hk]
        · have he' : ¬n = decodeName fmt k := fun hh => he hh.symm
          cases hpn : plookup n plugins <;>
            simp [plookup, he, he', List.mem_cons]

/-! ## Sorting lemmas -/

theorem sortByLo_perm (lo : JSString → Nat) (l : List JSString) :
    List.Perm (sortByLo lo l) l :=
  List.perm_insertionSort _ l

theorem sortByLo_sorted (lo : JSString → Nat) (l : List JSString) :
    List.Sorted (fun a b => lo a ≤ lo b) (sortByLo lo l) := by
  haveI h1 : IsTotal JSString (fun a b => lo a ≤ lo b) :=
    ⟨fun a b => Nat.le_total (lo a) (lo b)⟩
  haveI h2 : IsTrans JSString (fun a b => lo a ≤ lo b) :=
    ⟨fun a b c hab hbc => Nat.le_trans hab hbc⟩
  exact List.sorted_insertionSort _ l

theorem mem_sortedList {native : List JSString} {m : PluginMap} {n : JSString} :
    n ∈ sortedList native m ↔ n ∈ jsKeys m ∧ toLowerStr n ∉ native := by
  unfold sortedList sortByLo
  rw [List.Perm.mem_iff (List.perm_insertionSort _ _)]
  simp [List.mem_filter]

theorem sortedList_nodup {native : List JSString} {m : PluginMap}
    (h : (jsKeys m).Nodup) : (sortedList native m).Nodup := by
  unfold sortedList sortByLo
  exact (List.Perm.nodup_iff (List.perm_insertionSort _ _)).mpr (List.Nodup.filter _ h)

theorem idxOf_lt_length {n : JSString} :
    ∀ {l : List JSString}, n ∈ l → idxOf n l < l.length := by
  intro l
  induction l with
  | nil => intro h; simp at h
  | cons k rest ih =>
    intro h
    by_cases hk : k = n
    · simp [idxOf, hk]
    · have : n ∈ rest := by
        rcases List.mem_cons.mp h with he | hr
        · exact absurd he.symm hk
        · exact hr
      simp only [idxOf, if_neg hk, List.length_cons]
      exact Nat.succ_lt_succ (ih this)

theorem get_idxOf {n : JSString} :
    ∀ {l : List JSString} (hm : n ∈ l),
      l.get ⟨idxOf n l, idxOf_lt_length hm⟩ = n := by
  intro l
  induction l with
  | nil => intro h; simp at h
  | cons k rest ih =>
    intro h
    by_cases hk : k = n
    · simp [idxOf, hk]
    · have hr : n ∈ rest := by
        rcases List.mem_cons.mp h with he | hr
        · exact absurd he.symm hk
        · exact hr
      have hlt := idxOf_lt_length hr
      have := ih hr
      simp only [idxOf, if_neg hk]
      exact this

theorem sorted_idxOf_lt {lo : JSString → Nat} {l : List JSString}
    (hs : List.Sorted (fun a b => lo a ≤ lo b) l)
    {a b : JSString} (ha : a ∈ l) (hb : b ∈ l) (hlt : lo a < lo b) :
    idxOf a l < idxOf b l := by
  by_contra hle
  push_neg at hle
  have hia : idxOf a l < l.length := idxOf_lt_length ha
  have hib : idxOf b l < l.length := idxOf_lt_length hb
  rcases Nat.eq_or_lt_of_le hle with heq | hlt2
  · have hga := get_idxOf ha
    have hgb := get_idxOf hb
    have hab : b = a := by
      rw [← hga, ← hgb]
      congr 1
      exact Fin.ext heq
    rw [hab] at hlt
    exact absurd hlt (lt_irrefl _)
  · have hrel := hs.rel_get_of_lt
      (show (⟨idxOf b l, hib⟩ : Fin l.length) < ⟨idxOf a l, hia⟩ from hlt2)
    rw [get_idxOf hb, get_idxOf ha] at hrel
    omega

end PluginPersistor

namespace PluginPersistor

/-- **C9**: a plugin name whose lower-cased form is in the native set is
never among the plugin names rendered into either file (`sortedList` is the
name list both rendered files are generated from, and the `'original'`
enabled file renders its `toPluginListOriginal` subset); the parser skips it
(`initFromKeyList` leaves the map unchanged at that name even when the
source bytes mention it); and parsing into a fresh map never produces it. -/
theorem c9_native_exclusion (native : List JSString) (n : JSString)
    (hn : toLowerStr n ∈ native) :
    (∀ m : PluginMap, n ∉ sortedList native m ∧
      n ∉ toPluginListOriginal m (sortedList native m)) ∧
    (∀ (fmt : Option PluginFormat) (plugins : PluginMap)
        (keys : List JSString) (e : Bool),
      plookup n (initFromKeyList fmt native plugins keys e) = plookup n plugins) ∧
    (∀ (fmt : Option PluginFormat) (keys : List JSString) (e : Bool),
      plookup n (initFromKeyList fmt native [] keys e) = none) := by
  refine ⟨fun m => ⟨?_, ?_⟩,
    fun fmt plugins keys e =>
      plookup_initAux_native fmt native n hn keys plugins plugins.length e,
    fun fmt keys e => by
      rw [initFromKeyList, plookup_initAux_native fmt native n hn keys [] _ e]
      rfl⟩
  · intro hmem
    exact (mem_sortedList.mp hmem).2 hn
  · intro hmem
    have hs := List.mem_filter.mp hmem
    exact (mem_sortedList.mp hs.1).2 hn

/-- Witness for `c9_native_exclusion` with native set `{skyrim.esm}` and the
differently-cased name `Skyrim.ESM`. -/
theorem c9_native_exclusion_witness :
    ("Skyrim.ESM".data ∉ sortedList exNative exGoodMap ∧
      "Skyrim.ESM".data ∉
        toPluginListOriginal exGoodMap (sortedList exNative exGoodMap)) ∧
    plookup "Skyrim.ESM".data
      (initFromKeyList (some PluginFormat.fallout4) exNative exGoodMap
        [('*' :: "Skyrim.ESM".data), "ModQ.esp".data] true) =
      plookup "Skyrim.ESM".data exGoodMap ∧
    plookup "Skyrim.ESM".data
      (initFromKeyList (some PluginFormat.original) exNative []
        ["Skyrim.ESM".data] true) = none :=
  ⟨(c9_native_exclusion exNative "Skyrim.ESM".data (by decide)).1 exGoodMap,
   (c9_native_exclusion exNative "Skyrim.ESM".data (by decide)).2.1
     (some PluginFormat.fallout4) exGoodMap
     [('*' :: "Skyrim.ESM".data), "ModQ.esp".data] true,
   (c9_native_exclusion exNative "Skyrim.ESM".data (by decide)).2.2
     (some PluginFormat.original) ["Skyrim.ESM".data] true⟩

theorem deserializeCore_keys {fmt : Option PluginFormat}
    {native : List JSString} {read : String → Option (List Char)} {p : String}
    {np : PluginMap}
    (h : deserializeCore fmt native read p = some np) (n : JSString) :
    (plookup n np).isSome = true ↔
      (toLowerStr n ∉ native ∧ n ∈ namesInFiles fmt read p) := by
  by_cases hfmt : fmt = some PluginFormat.original
  · subst hfmt
    cases h1 : read (pathJoin p "loadorder.txt") with
    | none => simp [deserializeCore, h1] at h
    | some d1 =>
      cases h2 : read (pathJoin p "plugins.txt") with
      | none => simp [deserializeCore, h1, h2] at h
      | some d2 =>
        cases hd : d2.isEmpty with
        | true => simp [deserializeCore, h1, h2, hd] at h
        | false =>
          have hval := @deserializeCore_original native read p d1 d2 h1 h2 hd
          rw [hval] at h
          have hnp := Option.some_injective _ h
          rw [← hnp]
          rw [initFromKeyList, initFromKeyList, plookup_initAux_isSome,
            plookup_initAux_isSome]
          simp only [namesInFiles, h1, h2, if_pos rfl, Option.map_some',
            Option.getD_some, List.mem_append, plookup, Option.isSome_none,
            Bool.false_eq_true, false_or]
          tauto
  · cases h2 : read (pathJoin p "plugins.txt") with
    | none => simp [deserializeCore, hfmt, h2] at h
    | some d2 =>
      cases hd : d2.isEmpty with
      | true => simp [deserializeCore, hfmt, h2, hd] at h
      | false =>
        have hval := @deserializeCore_not_original fmt native read p d2 hfmt h2 hd
        rw [hval] at h
        have hnp := Option.some_injective _ h
        rw [← hnp]
        rw [initFromKeyList, plookup_initAux_isSome]
        simp only [namesInFiles, h2, if_neg hfmt, Option.map_some',
          Option.getD_some, List.nil_append, plookup, Option.isSome_none,
          Bool.false_eq_true, false_or]

/-- **C10**: a successful reload rebuilds the EntryMap from scratch: the new
map is exactly the parse result (independent of whatever map was in memory
before), a name is a key of the new map precisely when it is a non-native
name appearing in the file(s) just read, and any previous entry whose name
is absent from the files is gone. -/
theorem c10_reload_rebuilds_from_scratch (s : PState)
    (read : String → Option (List Char)) (p : String) (np : PluginMap)
    (hp : s.pluginPath = some p)
    (hcore : deserializeCore s.pluginFormat (s.nativePlugins.getD []) read p =
      some np) :
    (deserialize s read).1.plugins = np ∧
    (∀ m' : PluginMap, (deserialize { s with plugins := m' } read).1.plugins = np) ∧
    (∀ n, (plookup n np).isSome = true ↔
      (toLowerStr n ∉ s.nativePlugins.getD [] ∧
        n ∈ namesInFiles s.pluginFormat read p)) ∧
    (∀ n, n ∉ namesInFiles s.pluginFormat read p → plookup n np = none) := by
  have h1 : (deserialize s read).1.plugins = np := by
    rw [deserialize_of_core_some hp hcore]
    by_cases hcb : s.resetCallback = true <;> simp [hcb]
  refine ⟨h1, ?_, deserializeCore_keys hcore, ?_⟩
  · intro m'
    have hp' : ({ s with plugins := m' } : PState).pluginPath = some p := hp
    have hcore' : deserializeCore ({ s with plugins := m' } : PState).pluginFormat
        (({ s with plugins := m' } : PState).nativePlugins.getD []) read p =
        some np := hcore
    rw [deserialize_of_core_some hp' hcore']
    dsimp only
    by_cases hcb : s.resetCallback = true <;> simp [hcb]
  · intro n hnot
    cases hv : plookup n np with
    | none => rfl
    | some v =>
      have hsome : (plookup n np).isSome = true := by simp [hv]
      exact absurd ((deserializeCore_keys hcore n).mp hsome).2 hnot

/-- Witness for `c10_reload_rebuilds_from_scratch` on the example scenario. -/
theorem c10_reload_rebuilds_from_scratch_witness :
    (deserialize exOrigState exOrigRead).1.plugins = exParsedMap ∧
    (∀ m' : PluginMap,
      (deserialize { exOrigState with plugins := m' } exOrigRead).1.plugins =
        exParsedMap) ∧
    (∀ n, (plookup n exParsedMap).isSome = true ↔
      (toLowerStr n ∉ exOrigState.nativePlugins.getD [] ∧
        n ∈ namesInFiles exOrigState.pluginFormat exOrigRead "p")) ∧
    (∀ n, n ∉ namesInFiles exOrigState.pluginFormat exOrigRead "p" →
      plookup n exParsedMap = none) :=
  c10_reload_rebuilds_from_scratch exOrigState exOrigRead "p" exParsedMap rfl
    (by decide)

end PluginPersistor

namespace PluginPersistor

theorem keepLine_of {v : JSString} (h1 : v ≠ []) (h2 : v.head? ≠ some '#') :
    keepLine v = true := by
  simp only [keepLine, Bool.and_eq_true, Bool.not_eq_true']
  constructor
  · simpa using h2
  · simpa [List.isEmpty_iff] using h1

theorem sortedList_valid_lines {native : List JSString} {m : PluginMap}
    (hvalid : ∀ kv ∈ m, kv.1 ≠ [] ∧ '\n' ∉ kv.1 ∧ kv.1.head? ≠ some '#') :
    ∀ l ∈ sortedList native m, '\n' ∉ l ∧ keepLine l = true := by
  intro l hl
  have hkey : l ∈ jsKeys m := (mem_sortedList.mp hl).1
  rcases List.mem_map.mp hkey with ⟨kv, hkv, hfst⟩
  have hv := hvalid kv hkv
  rw [hfst] at hv
  exact ⟨hv.2.1, keepLine_of hv.1 hv.2.2⟩

/-- **C2** (amended): with the `'fallout4'` (`AlternateOrdered`) format
bound, `doSerialize` writes exactly two files — first `loadorder.txt`
(UTF-8), then `plugins.txt` (Latin-1) — both carrying the generated comment
header; both render the same name list (the non-native keys in ascending
`loadOrder`), the order file without markers and `plugins.txt` with each
line prefixed by the `'*'` marker exactly when the plugin is enabled. -/
theorem c2_fallout4_serialization (s : PState) (p : String)
    (native : List JSString) (hp : s.pluginPath = some p)
    (hnat : s.nativePlugins = some native)
    (hfmt : s.pluginFormat = some PluginFormat.fallout4)
    (hvalid : ∀ kv ∈ s.plugins,
      kv.1 ≠ [] ∧ '\n' ∉ kv.1 ∧ kv.1.head? ≠ some '#') :
    ∃ names : List JSString,
      doSerialize s =
        [Event.fileWrite ⟨pathJoin p "loadorder.txt", Encoding.utf8,
           renderContent names⟩,
         Event.fileWrite ⟨pathJoin p "plugins.txt", Encoding.latin1,
           renderContent (names.map
             (fun n => if enabledOf s.plugins n then '*' :: n else n))⟩] ∧
      filterFileData (renderContent names) = names ∧
      filterFileData (renderContent (names.map
          (fun n => if enabledOf s.plugins n then '*' :: n else n))) =
        names.map (fun n => if enabledOf s.plugins n then '*' :: n else n) ∧
      List.Perm names ((jsKeys s.plugins).filter
        (fun n => !decide (toLowerStr n ∈ native))) ∧
      List.Sorted (fun a b => loOf s.plugins a ≤ loOf s.plugins b) names := by
  refine ⟨sortedList native s.plugins, ?_, ?_, ?_, ?_, ?_⟩
  · simp only [doSerialize, hp, hnat, Option.getD_some, hfmt, toPluginList,
      toPluginListFallout4]
    have : ¬(some PluginFormat.fallout4 = some PluginFormat.original) := by decide
    rw [if_neg this]
  · exact filterFileData_renderContent (sortedList_valid_lines hvalid)
  · apply filterFileData_renderContent
    intro l hl
    rcases List.mem_map.mp hl with ⟨n, hn, hmark⟩
    have hv := sortedList_valid_lines hvalid n hn
    have hkey : n ∈ jsKeys s.plugins := (mem_sortedList.mp hn).1
    rcases List.mem_map.mp hkey with ⟨kv, hkv, hfst⟩
    have hnn : n ≠ [] := by
      have := (hvalid kv hkv).1
      rw [hfst] at this
      exact this
    have hnl : '\n' ∉ n := hv.1
    by_cases he : enabledOf s.plugins n = true
    · rw [← hmark]
      simp only [he, if_pos rfl]
      constructor
      · intro hcon
        rcases List.mem_cons.mp hcon with hh | hh
        · exact absurd hh.symm (by decide)
        · exact hnl hh
      · exact keepLine_of (by simp) (by simp)
    · rw [← hmark]
      simp only [he, if_neg]
      exact hv
  · exact sortByLo_perm _ _
  · exact sortByLo_sorted _ _

/-- Witness for `c2_fallout4_serialization` at a concrete bound state. -/
theorem c2_fallout4_serialization_witness :
    ∃ names : List JSString,
      doSerialize exF4State =
        [Event.fileWrite ⟨pathJoin "p" "loadorder.txt", Encoding.utf8,
           renderContent names⟩,
         Event.fileWrite ⟨pathJoin "p" "plugins.txt", Encoding.latin1,
           renderContent (names.map
             (fun n => if enabledOf exF4State.plugins n then '*' :: n else n))⟩] ∧
      filterFileData (renderContent names) = names ∧
      filterFileData (renderContent (names.map
          (fun n => if enabledOf exF4State.plugins n then '*' :: n else n))) =
        names.map (fun n => if enabledOf exF4State.plugins n then '*' :: n else n) ∧
      List.Perm names ((jsKeys exF4State.plugins).filter
        (fun n => !decide (toLowerStr n ∈ ([] : List JSString)))) ∧
      List.Sorted
        (fun a b => loOf exF4State.plugins a ≤ loOf exF4State.plugins b) names :=
  c2_fallout4_serialization exF4State "p" [] rfl rfl rfl (by decide)

end PluginPersistor

namespace PluginPersistor

theorem plookup_mem {n : JSString} {m : PluginMap} {e : ILoadOrder}
    (h : plookup n m = some e) : (n, e) ∈ m := by
  induction m with
  | nil => simp [plookup] at h
  | cons kv rest ih =>
    obtain ⟨k1, e1⟩ := kv
    by_cases hk : k1 = n
    · subst hk
      have hv : e1 = e := by
        have hred : plookup k1 ((k1, e1) :: rest) = some e1 := by simp [plookup]
        rw [hred] at h
        exact Option.some_injective _ h
      subst hv
      exact List.mem_cons_self _ _
    · simp only [plookup, if_neg hk] at h
      exact List.mem_cons_of_mem _ (ih h)

theorem isSome_of_mem_jsKeys {n : JSString} :
    ∀ {m : PluginMap}, n ∈ jsKeys m → (plookup n m).isSome = true := by
  intro m
  induction m with
  | nil => intro h; simp [jsKeys] at h
  | cons kv rest ih =>
    intro h
    obtain ⟨k1, e1⟩ := kv
    by_cases hk : k1 = n
    · simp [plookup, hk]
    · have : n ∈ jsKeys rest := by
        simp only [jsKeys, List.map_cons, List.mem_cons] at h
        rcases h with he | hr
        · exact absurd he.symm hk
        · exact hr
      simp only [plookup, if_neg hk]
      exact ih this

theorem mem_jsKeys_of_some {n : JSString} {m : PluginMap} {e : ILoadOrder}
    (h : plookup n m = some e) : n ∈ jsKeys m :=
  List.mem_map.mpr ⟨(n, e), plookup_mem h, rfl⟩

theorem plookup_eq_none_of_not_mem {n : JSString} {m : PluginMap}
    (h : n ∉ jsKeys m) : plookup n m = none := by
  cases hv : plookup n m with
  | none => rfl
  | some e => exact absurd (mem_jsKeys_of_some hv) h

theorem enabledOf_eq {n : JSString} {m : PluginMap} {e : ILoadOrder}
    (h : plookup n m = some e) : enabledOf m n = e.enabled := by
  simp [enabledOf, h]

theorem loOf_eq {n : JSString} {m : PluginMap} {e : ILoadOrder}
    (h : plookup n m = some e) : loOf m n = e.loadOrder := by
  simp [loOf, h]

theorem decodeName_original (k : JSString) :
    decodeName (some PluginFormat.original) k = k := rfl

theorem keyEnabledOf_original_true (k : JSString) :
    keyEnabledOf (some PluginFormat.original) true k = true := rfl

theorem keyEnabledOf_false (fmt : Option PluginFormat) (k : JSString) :
    keyEnabledOf fmt false k = false := rfl

theorem decodeName_markIf {m : PluginMap} {n : JSString}
    (hstar : n.head? ≠ some '*') :
    decodeName (some PluginFormat.fallout4)
      (if enabledOf m n then '*' :: n else n) = n := by
  by_cases he : enabledOf m n = true
  · simp [he, decodeName]
  · have hb : enabledOf m n = false := by simpa using he
    have hb2 : (n.head? == some '*') = false := beq_eq_false_iff_ne.mpr hstar
    simp [hb, decodeName, hb2]

theorem keyEnabledOf_markIf {m : PluginMap} {n : JSString}
    (hstar : n.head? ≠ some '*') :
    keyEnabledOf (some PluginFormat.fallout4) true
      (if enabledOf m n then '*' :: n else n) = enabledOf m n := by
  by_cases he : enabledOf m n = true
  · simp [he, keyEnabledOf]
  · have hb : enabledOf m n = false := by simpa using he
    have hb2 : (n.head? == some '*') = false := beq_eq_false_iff_ne.mpr hstar
    simp [hb, keyEnabledOf, hb2]

theorem plookup_freshFrom_shape (fmt : Option PluginFormat) (e : Bool)
    (g : JSString → Bool) (f : JSString → JSString) :
    ∀ (names : List JSString),
      (∀ n ∈ names, decodeName fmt (f n) = n) →
      (∀ n ∈ names, keyEnabledOf fmt e (f n) = g n) →
      names.Nodup →
      ∀ (pos : Nat) (n : JSString),
        plookup n (freshFrom fmt e pos (names.map f)) =
          if n ∈ names then some ⟨g n, pos + idxOf n names⟩ else none := by
  intro names
  induction names with
  | nil => intro _ _ _ pos n; simp [freshFrom, plookup]
  | cons n1 rest ih =>
    intro hdec hen hnd pos n
    have hd1 : decodeName fmt (f n1) = n1 := hdec n1 (by simp)
    have he1 : keyEnabledOf fmt e (f n1) = g n1 := hen n1 (by simp)
    simp only [List.map_cons, freshFrom, hd1, he1]
    by_cases hn : n1 = n
    · subst hn
      simp [plookup, idxOf]
    · have hrest := ih (fun k hk => hdec k (by simp [hk]))
        (fun k hk => hen k (by simp [hk])) (List.Nodup.of_cons hnd) (pos + 1) n
      simp only [plookup, if_neg hn, hrest]
      by_cases hm : n ∈ rest
      · rw [if_pos hm, if_pos (List.mem_cons_of_mem n1 hm)]
        simp only [idxOf, if_neg hn]
        have harith : pos + 1 + idxOf n rest = pos + (idxOf n rest + 1) := by
          omega
        rw [harith]
      · rw [if_neg hm, if_neg (by
          intro hc
          rcases List.mem_cons.mp hc with hh | hh
          · exact hn hh.symm
          · exact hm hh)]

end PluginPersistor

namespace PluginPersistor

theorem toPluginListFallout4_valid_lines {native : List JSString}
    {m : PluginMap}
    (hvalid : ∀ kv ∈ m, kv.1 ≠ [] ∧ '\n' ∉ kv.1 ∧ kv.1.head? ≠ some '#') :
    ∀ l ∈ toPluginListFallout4 m (sortedList native m),
      '\n' ∉ l ∧ keepLine l = true := by
  intro l hl
  rcases List.mem_map.mp hl with ⟨k, hk, hmark⟩
  have hv := sortedList_valid_lines hvalid k hk
  by_cases he : enabledOf m k = true
  · rw [← hmark]
    simp only [he, if_pos rfl]
    constructor
    · intro hcon
      rcases List.mem_cons.mp hcon with hh | hh
      · exact absurd hh.symm (by decide)
      · exact hv.1 hh
    · exact keepLine_of (by simp) (by simp)
  · rw [← hmark]
    simp only [he, if_neg]
    exact hv

theorem roundTripF4_lookup (native : List JSString) (m : PluginMap)
    (hnd : (jsKeys m).Nodup)
    (hnat : ∀ kv ∈ m, toLowerStr kv.1 ∉ native)
    (hvalid : ∀ kv ∈ m, kv.1 ≠ [] ∧ '\n' ∉ kv.1 ∧ kv.1.head? ≠ some '#')
    (hstar : ∀ kv ∈ m, kv.1.head? ≠ some '*') (n : JSString) :
    plookup n (roundTripFallout4 native m) =
      (plookup n m).map
        (fun e => ILoadOrder.mk e.enabled (idxOf n (sortedList native m))) := by
  have hmem : ∀ k ∈ sortedList native m, (plookup k m).isSome = true :=
    fun k hk => isSome_of_mem_jsKeys (mem_sortedList.mp hk).1
  have hstar' : ∀ k ∈ sortedList native m, k.head? ≠ some '*' := by
    intro k hk
    obtain ⟨e, he⟩ := Option.isSome_iff_exists.mp (hmem k hk)
    exact hstar (k, e) (plookup_mem he)
  have hfd : filterFileData
      (renderContent (toPluginListFallout4 m (sortedList native m))) =
      toPluginListFallout4 m (sortedList native m) :=
    filterFileData_renderContent (toPluginListFallout4_valid_lines hvalid)
  have hrt : roundTripFallout4 native m =
      initFromKeyList (some PluginFormat.fallout4) native []
        (toPluginListFallout4 m (sortedList native m)) true := by
    simp only [roundTripFallout4]
    rw [hfd]
  have hkeys : toPluginListFallout4 m (sortedList native m) =
      (sortedList native m).map
        (fun k => if enabledOf m k then '*' :: k else k) := rfl
  have hdecmap : ((sortedList native m).map
        (fun k => if enabledOf m k then '*' :: k else k)).map
        (decodeName (some PluginFormat.fallout4)) = sortedList native m := by
    rw [List.map_map]
    have : ∀ k ∈ sortedList native m,
        (decodeName (some PluginFormat.fallout4) ∘
          fun k => if enabledOf m k then '*' :: k else k) k = k := by
      intro k hk
      exact decodeName_markIf (hstar' k hk)
    rw [List.map_congr_left this, List.map_id']
  have hfresh : initFromKeyList (some PluginFormat.fallout4) native []
      (toPluginListFallout4 m (sortedList native m)) true =
      freshFrom (some PluginFormat.fallout4) true 0
        (toPluginListFallout4 m (sortedList native m)) := by
    rw [initFromKeyList]
    have := initAux_fresh (some PluginFormat.fallout4) native true
      (toPluginListFallout4 m (sortedList native m)) [] 0
      (by
        intro k hk
        rw [hkeys] at hk
        rcases List.mem_map.mp hk with ⟨j, hj, hmark⟩
        rw [← hmark, decodeName_markIf (hstar' j hj)]
        exact (mem_sortedList.mp hj).2)
      (fun k _ => rfl)
      (by
        rw [hkeys, hdecmap]
        exact sortedList_nodup hnd)
    simpa using this
  have hshape := plookup_freshFrom_shape (some PluginFormat.fallout4) true
    (enabledOf m) (fun k => if enabledOf m k then '*' :: k else k)
    (sortedList native m)
    (fun j hj => decodeName_markIf (hstar' j hj))
    (fun j hj => keyEnabledOf_markIf (hstar' j hj))
    (sortedList_nodup hnd) 0 n
  rw [hrt, hfresh, hkeys, hshape]
  cases hv : plookup n m with
  | none =>
    rw [if_neg]
    · rfl
    · intro hns
      have := hmem n hns
      rw [hv] at this
      simp at this
  | some e =>
    have hin : n ∈ sortedList native m := by
      apply mem_sortedList.mpr
      exact ⟨mem_jsKeys_of_some hv, hnat (n, e) (plookup_mem hv)⟩
    rw [if_pos hin, enabledOf_eq hv]
    simp

theorem roundTripOrig_lookup (native : List JSString) (m : PluginMap)
    (hnd : (jsKeys m).Nodup)
    (hnat : ∀ kv ∈ m, toLowerStr kv.1 ∉ native)
    (hvalid : ∀ kv ∈ m, kv.1 ≠ [] ∧ '\n' ∉ kv.1 ∧ kv.1.head? ≠ some '#')
    (n : JSString) :
    plookup n (roundTripOriginal native m) =
      (plookup n m).map
        (fun e => ILoadOrder.mk e.enabled (idxOf n (sortedList native m))) := by
  have hmem : ∀ k ∈ sortedList native m, (plookup k m).isSome = true :=
    fun k hk => isSome_of_mem_jsKeys (mem_sortedList.mp hk).1
  have hfd1 : filterFileData (renderContent (sortedList native m)) =
      sortedList native m :=
    filterFileData_renderContent (sortedList_valid_lines hvalid)
  have hfd2 : filterFileData
      (renderContent (toPluginListOriginal m (sortedList native m))) =
      toPluginListOriginal m (sortedList native m) := by
    apply filterFileData_renderContent
    intro l hl
    exact sortedList_valid_lines hvalid l (List.mem_filter.mp hl).1
  -- phase one: all names fresh, disabled
  have hnp1 : initFromKeyList (some PluginFormat.original) native []
      (sortedList native m) false =
      freshFrom (some PluginFormat.original) false 0 (sortedList native m) := by
    rw [initFromKeyList]
    have := initAux_fresh (some PluginFormat.original) native false
      (sortedList native m) [] 0
      (by
        intro k hk
        rw [decodeName_original]
        exact (mem_sortedList.mp hk).2)
      (fun k _ => rfl)
      (by
        have : (sortedList native m).map
            (decodeName (some PluginFormat.original)) = sortedList native m := by
          rw [List.map_congr_left (fun a _ => decodeName_original a), List.map_id']
        rw [this]
        exact sortedList_nodup hnd)
    simpa using this
  have hshape1 : ∀ j, plookup j
      (freshFrom (some PluginFormat.original) false 0 (sortedList native m)) =
      if j ∈ sortedList native m
      then some ⟨false, 0 + idxOf j (sortedList native m)⟩ else none := by
    intro j
    have hs := plookup_freshFrom_shape (some PluginFormat.original) false
      (fun _ => false) (fun a => a) (sortedList native m)
      (fun a _ => decodeName_original a) (fun a _ => rfl)
      (sortedList_nodup hnd) 0 j
    rw [List.map_id'] at hs
    exact hs
  -- phase two: all enabled names present, set enabled
  have hpresent : initFromKeyList (some PluginFormat.original) native
      (freshFrom (some PluginFormat.original) false 0 (sortedList native m))
      (toPluginListOriginal m (sortedList native m)) true =
      setAllTrue (toPluginListOriginal m (sortedList native m))
        (freshFrom (some PluginFormat.original) false 0 (sortedList native m)) := by
    rw [initFromKeyList]
    have := initAux_present (some PluginFormat.original) native true
      (toPluginListOriginal m (sortedList native m))
      (freshFrom (some PluginFormat.original) false 0 (sortedList native m))
      (freshFrom (some PluginFormat.original) false 0 (sortedList native m)).length
      (by
        intro k hk
        rw [decodeName_original]
        exact (mem_sortedList.mp (List.mem_filter.mp hk).1).2)
      (by
        intro k hk
        rw [decodeName_original, hshape1 k,
          if_pos (List.mem_filter.mp hk).1]
        rfl)
    exact this
  have hrt : roundTripOriginal native m =
      setAllTrue (toPluginListOriginal m (sortedList native m))
        (freshFrom (some PluginFormat.original) false 0 (sortedList native m)) := by
    simp only [roundTripOriginal]
    rw [hfd1, hnp1, hfd2, hpresent]
  rw [hrt, plookup_setAllTrue]
  cases hv : plookup n m with
  | none =>
    have hns : n ∉ sortedList native m := by
      intro hns
      have := hmem n hns
      rw [hv] at this
      simp at this
    rw [if_neg, hshape1 n, if_neg hns]
    · rfl
    · intro hc
      exact hns (List.mem_filter.mp hc).1
  | some e =>
    have hin : n ∈ sortedList native m := by
      apply mem_sortedList.mpr
      exact ⟨mem_jsKeys_of_some hv, hnat (n, e) (plookup_mem hv)⟩
    rw [hshape1 n, if_pos hin]
    by_cases he : enabledOf m n = true
    · have hmemf : n ∈ toPluginListOriginal m (sortedList native m) :=
        List.mem_filter.mpr ⟨hin, by simpa using he⟩
      rw [if_pos hmemf]
      have hee : e.enabled = true := by rw [← enabledOf_eq hv]; exact he
      simp [hee]
    · have hee : e.enabled = false := by
        rw [← enabledOf_eq hv]
        simpa using he
      rw [if_neg]
      · simp [hee]
      · intro hc
        exact he (by simpa using (List.mem_filter.mp hc).2)

end PluginPersistor

namespace PluginPersistor

/-- **C8** (counterexample): a map satisfying the claim's stated hypotheses
(unique names, distinct load orders, no native overlap) whose single name
starts with `'#'` does *not* round-trip: the rendered line is stripped as a
comment on parse, so the entry vanishes in both formats. -/
theorem c8_counterexample :
    (plookup ['#', 'm'] hashNameMap).isSome = true ∧
    (jsKeys hashNameMap).Nodup ∧
    (∀ kv ∈ hashNameMap, toLowerStr kv.1 ∉ ([] : List JSString)) ∧
    plookup ['#', 'm'] (roundTripOriginal [] hashNameMap) = none ∧
    plookup ['#', 'm'] (roundTripFallout4 [] hashNameMap) = none := by
  decide

/-- **C8** (amended): for every EntryMap with unique names, pairwise distinct
`loadOrder` values, no native overlap, and well-formed names (non-empty, no
newline character, not beginning with the comment character `'#'`; for the
`AlternateOrdered` round trip additionally not beginning with the marker
`'*'`), rendering and re-parsing reproduces, in either format, exactly the
original key set with identical `enabled` values, each entry's new
`loadOrder` being its rank in the original ascending order — in particular
the marker round-trips to `enabled = true` and its absence to
`enabled = false`, and the original ascending order is preserved. -/
theorem c8_round_trip (native : List JSString) (m : PluginMap)
    (hnd : (jsKeys m).Nodup)
    (hdist : m.Pairwise (fun kv1 kv2 => kv1.2.loadOrder ≠ kv2.2.loadOrder))
    (hnat : ∀ kv ∈ m, toLowerStr kv.1 ∉ native)
    (hvalid : ∀ kv ∈ m, kv.1 ≠ [] ∧ '\n' ∉ kv.1 ∧ kv.1.head? ≠ some '#') :
    (∀ n, plookup n (roundTripOriginal native m) =
      (plookup n m).map
        (fun e => ILoadOrder.mk e.enabled (idxOf n (sortedList native m)))) ∧
    ((∀ kv ∈ m, kv.1.head? ≠ some '*') →
      ∀ n, plookup n (roundTripFallout4 native m) =
        (plookup n m).map
          (fun e => ILoadOrder.mk e.enabled (idxOf n (sortedList native m)))) ∧
    (∀ n1 n2 e1 e2, plookup n1 m = some e1 → plookup n2 m = some e2 →
      e1.loadOrder < e2.loadOrder →
      idxOf n1 (sortedList native m) < idxOf n2 (sortedList native m)) := by
  refine ⟨roundTripOrig_lookup native m hnd hnat hvalid,
    fun hstar => roundTripF4_lookup native m hnd hnat hvalid hstar, ?_⟩
  intro n1 n2 e1 e2 h1 h2 hlt
  have hin1 : n1 ∈ sortedList native m :=
    mem_sortedList.mpr ⟨mem_jsKeys_of_some h1, hnat (n1, e1) (plookup_mem h1)⟩
  have hin2 : n2 ∈ sortedList native m :=
    mem_sortedList.mpr ⟨mem_jsKeys_of_some h2, hnat (n2, e2) (plookup_mem h2)⟩
  apply sorted_idxOf_lt (sortByLo_sorted (loOf m) _) hin1 hin2
  rw [loOf_eq h1, loOf_eq h2]
  exact hlt

/-- Witness for `c8_round_trip` on a two-entry map: both formats reproduce
the enabled flags, and the ranks follow the original ascending load order. -/
theorem c8_round_trip_witness :
    plookup "Alpha.esp".data (roundTripOriginal [] exGoodMap) =
      some ⟨true, 0⟩ ∧
    plookup "Beta.esp".data (roundTripOriginal [] exGoodMap) =
      some ⟨false, 1⟩ ∧
    plookup "Alpha.esp".data (roundTripFallout4 [] exGoodMap) =
      some ⟨true, 0⟩ ∧
    plookup "Beta.esp".data (roundTripFallout4 [] exGoodMap) =
      some ⟨false, 1⟩ ∧
    idxOf "Alpha.esp".data (sortedList [] exGoodMap) <
      idxOf "Beta.esp".data (sortedList [] exGoodMap) := by
  have h := c8_round_trip [] exGoodMap (by decide) (by decide) (by decide)
    (by decide)
  refine ⟨?_, ?_, ?_, ?_, ?_⟩
  · rw [h.1 "Alpha.esp".data]
    decide
  · rw [h.1 "Beta.esp".data]
    decide
  · rw [h.2.1 (by decide) "Alpha.esp".data]
    decide
  · rw [h.2.1 (by decide) "Beta.esp".data]
    decide
  · exact h.2.2 "Alpha.esp".data "Beta.esp".data ⟨true, 2⟩ ⟨false, 7⟩
      (by decide) (by decide) (by decide)

end PluginPersistor
